import Mathlib

/-!
Shallow embedding of the `my_hashmap` repository (src/hash_map.rs, the
authoritative copy also duplicated in src/hashmap.rs) and proofs about it.

Modelling conventions:
* `usize` is modelled as `Nat`; the wrapping arithmetic of release builds is
  made explicit with `% USIZE` (`USIZE = 2 ^ 64`) exactly where the source
  performs `usize` addition/subtraction whose over/underflow is observable
  (`HashMap::insert_kv`'s `self.len += 1`, `HashMap::remove`'s
  `self.len -= 1`; in debug builds the latter panics on underflow instead).
* The `DefaultHasher` 64-bit output is abstracted as a function
  `hash : K → Nat` (its value for a key is the `u64` the hasher produces);
  the repository's own test suite instantiates `Hash` with a constant
  function (`tests.rs`, `hash_collision`), so constant hash functions are a
  faithful instantiation.
* Whether both `K` and `V` are zero-sized types is a compile-time fact in
  Rust; it is threaded through as an explicit `zst : Bool` argument.
* The floating point comparison `len as f64 / capacity as f64 > 0.75` is
  modelled as `4 * len > 3 * capacity`, and
  `(len as f64 / 0.75) as usize` as `4 * len / 3`: `0.75` is exactly
  representable in `f64` and for every count below `2 ^ 51` the rounded
  division never crosses an integer boundary, so the two agree on every
  state considered here.
* `Bucket::vec_of_empties` zero-fills the allocation, which for the non-ZST
  case produces buckets whose `Option_` tags are `None`; it is modelled as
  `List.replicate count default`.  (For the ZST case the source skips the
  zero-fill and exposes uninitialized memory, which Rust leaves undefined;
  the model again uses default buckets.  No theorem below depends on bucket
  contents in the ZST case.)
* `HashMap::resize` calls `self.bucket_mut(&k).unwrap()` while rehashing;
  the `unwrap` panics when `new_capacity = 0` and the map is non-empty.
  The model makes that rehash step a no-op; every theorem below only
  exercises `resize` away from this panicking region.
-/

set_option linter.unusedSectionVars false
set_option linter.unnecessarySimpa false

namespace MyHashMap

def USIZE : Nat := 2 ^ 64

/-- isize::MAX as usize, the capacity reported for zero-sized key/value
types (src/hash_map.rs, `HashMap::capacity`). -/
def ISIZE_MAX : Nat := 2 ^ 63 - 1

/-- const INIT_CAPACITY: usize = 32 (src/hash_map.rs). -/
def INIT_CAPACITY : Nat := 32

variable {K V : Type} [DecidableEq K]

/-- One chaining unit of the table: an inline first slot plus a lazily
allocated overflow vector (src/hash_map.rs, `struct Bucket`).  `first`
models `Option_<(K, V)>` and `others` models `Option_<Vec<(K, V)>>`;
the distinction between an absent vector and a present empty vector is
kept because the source keeps it. -/
structure Bucket (K V : Type) where
  first : Option (K × V)
  others : Option (List (K × V))
  deriving DecidableEq

instance : Inhabited (Bucket K V) := ⟨⟨none, none⟩⟩

namespace Bucket

/-- The entries of a bucket in the order `for_each_kv` and the bucket
iterators visit them: the first slot (if occupied), then the overflow
vector (src/hash_map.rs, `Bucket::for_each_kv`). -/
def toList (b : Bucket K V) : List (K × V) :=
  b.first.toList ++ (b.others.getD [])

@[simp] theorem toList_default : (default : Bucket K V).toList = [] := rfl

/-- src/hash_map.rs, `Bucket::insert`.  If the first slot is empty, occupy
it; if its key equals `k`, replace it and return the displaced pair;
otherwise push onto the overflow vector (created with capacity 1 when
absent).  Note the source does not search the overflow vector for an
equal key. -/
def insert (b : Bucket K V) (k : K) (v : V) : Bucket K V × Option (K × V) :=
  match b.first with
  | none => ({ b with first := some (k, v) }, none)
  | some (k0, v0) =>
    if k0 = k then
      ({ b with first := some (k, v) }, some (k0, v0))
    else
      ({ b with others := some (b.others.getD [] ++ [(k, v)]) }, none)

/-- src/hash_map.rs, `Bucket::get`: check the first slot by key equality,
else linearly scan the overflow vector (absent vector scans nothing). -/
def get (b : Bucket K V) (k : K) : Option (K × V) :=
  match b.first with
  | some (k0, v0) =>
    if k = k0 then some (k0, v0)
    else
      match b.others with
      | none => none
      | some l => l.find? (fun p => decide (p.1 = k))
  | none =>
    match b.others with
    | none => none
    | some l => l.find? (fun p => decide (p.1 = k))

/-- Helper for the second branch of `Bucket::remove`: the source finds the
position of the first overflow entry with an equal key and calls
`Vec::remove` on it, which removes that element preserving the order of
the rest.  `none` when no key matches. -/
def removeFirstMatch (k : K) : List (K × V) → Option (V × List (K × V))
  | [] => none
  | (k0, v0) :: rest =>
    if k = k0 then some (v0, rest)
    else
      match removeFirstMatch k rest with
      | none => none
      | some (v, rest') => some (v, (k0, v0) :: rest')

/-- src/hash_map.rs, `Bucket::remove`.  If the first slot matches, vacate
it, pop the overflow vector's last element into the first slot and discard
the vector if this left it empty; otherwise remove the first matching
overflow entry by position (the vector is retained even when this empties
it). -/
def remove (b : Bucket K V) (k : K) : Bucket K V × Option V :=
  match b.first with
  | some (k0, v0) =>
    if k = k0 then
      match b.others with
      | none => (⟨none, none⟩, some v0)
      | some l =>
        let l' := l.dropLast
        (⟨l.getLast?, if l'.isEmpty then none else some l'⟩, some v0)
    else
      match b.others with
      | none => (b, none)
      | some l =>
        match removeFirstMatch k l with
        | none => (b, none)
        | some (v, l') => ({ b with others := some l' }, some v)
  | none =>
    match b.others with
    | none => (b, none)
    | some l =>
      match removeFirstMatch k l with
      | none => (b, none)
      | some (v, l') => ({ b with others := some l' }, some v)

/-- src/hash_map.rs, `Bucket::vec_of_empties`: a zero-filled bucket array
(each zero-filled bucket has both `Option_` tags `None`). -/
def vec_of_empties (count : Nat) : List (Bucket K V) :=
  List.replicate count default

end Bucket

/-- src/hash_map.rs, `struct HashMap`: the bucket array and the running
element count. -/
structure HashMap (K V : Type) where
  buckets : List (Bucket K V)
  len : Nat
  deriving DecidableEq

namespace HashMap

/-- src/hash_map.rs, `HashMap::new`. -/
def new : HashMap K V := ⟨Bucket.vec_of_empties 0, 0⟩

/-- src/hash_map.rs, `HashMap::with_capacity`. -/
def with_capacity (capacity : Nat) : HashMap K V :=
  ⟨Bucket.vec_of_empties capacity, 0⟩

/-- src/hash_map.rs, `HashMap::capacity`: `isize::MAX as usize` when both
`K` and `V` are zero-sized, else the bucket count. -/
def capacity (zst : Bool) (m : HashMap K V) : Nat :=
  if zst then ISIZE_MAX else m.buckets.length

/-- src/hash_map.rs, `HashMap::index`: hash the key and take the remainder
modulo the bucket count; `checked_rem` yields `None` when there are no
buckets.  Stated over a raw bucket array so that `resize`'s rehashing
loop can reuse it. -/
def bucketIdx (hash : K → Nat) (bs : List (Bucket K V)) (k : K) : Option Nat :=
  if bs.length = 0 then none else some (hash k % bs.length)

/-- The combination `self.bucket_mut(&key)` + `Bucket::insert` on a raw
bucket array, as performed by both `HashMap::insert_kv` and the rehashing
loop of `HashMap::resize`.  When there are no buckets the array is
returned unchanged (in `insert_kv` this is the early `?` return that
discards the entry; in `resize` the source `unwrap`s and panics). -/
def insertIntoBuckets (hash : K → Nat) (bs : List (Bucket K V)) (k : K) (v : V) :
    List (Bucket K V) × Option (K × V) :=
  match bucketIdx hash bs k with
  | none => (bs, none)
  | some i =>
    match bs[i]? with
    | none => (bs, none)
    | some b =>
      let p := b.insert k v
      (bs.set i p.1, p.2)

/-- The rehashing loop of src/hash_map.rs, `HashMap::resize`: every entry
of the old bucket array (bucket order, first-then-overflow within a
bucket) is re-inserted into the new array. -/
def rehash (hash : K → Nat) (es : List (K × V)) (bs : List (Bucket K V)) :
    List (Bucket K V) :=
  es.foldl (fun bs kv => (insertIntoBuckets hash bs kv.1 kv.2).1) bs

/-- All entries currently held, bucket order, first slot then overflow. -/
def entries (m : HashMap K V) : List (K × V) :=
  m.buckets.flatMap Bucket.toList

/-- src/hash_map.rs, `HashMap::resize`: swap in a fresh zero-initialized
bucket array and re-insert every old entry (ZST case: just replace the
bucket array). -/
def resize (zst : Bool) (hash : K → Nat) (m : HashMap K V) (new_capacity : Nat) :
    HashMap K V :=
  if zst then ⟨Bucket.vec_of_empties new_capacity, m.len⟩
  else ⟨rehash hash m.entries (Bucket.vec_of_empties new_capacity), m.len⟩

/-- src/hash_map.rs, `HashMap::expand_if_needed`: grow to `INIT_CAPACITY`
when there are no buckets, else grow fourfold when the load factor
exceeds 0.75 (`4 * len > 3 * capacity` models the exact `f64`
comparison). -/
def expand_if_needed (zst : Bool) (hash : K → Nat) (m : HashMap K V) :
    HashMap K V :=
  if m.buckets.isEmpty then m.resize zst hash INIT_CAPACITY
  else if 4 * m.len > 3 * m.capacity zst then m.resize zst hash (m.capacity zst * 4)
  else m

/-- src/hash_map.rs, `HashMap::insert_kv`: `self.len += 1`, then
`expand_if_needed`, then the target bucket's insert (the early `?` return
leaves the map untouched and reports no displaced pair). -/
def insert_kv (zst : Bool) (hash : K → Nat) (m : HashMap K V) (k : K) (v : V) :
    HashMap K V × Option (K × V) :=
  let m2 := expand_if_needed zst hash ⟨m.buckets, (m.len + 1) % USIZE⟩
  let p := insertIntoBuckets hash m2.buckets k v
  (⟨p.1, m2.len⟩, p.2)

/-- src/hash_map.rs, `HashMap::insert`. -/
def insert (zst : Bool) (hash : K → Nat) (m : HashMap K V) (k : K) (v : V) :
    HashMap K V × Option V :=
  let p := m.insert_kv zst hash k v
  (p.1, p.2.map Prod.snd)

/-- src/hash_map.rs, `HashMap::remove`: `self.len -= 1` (wrapping in
release builds, panicking in debug builds when `len = 0`), then the
target bucket's removal; the early `?` return when there are no buckets
reports `None` with `len` already decremented. -/
def remove (hash : K → Nat) (m : HashMap K V) (k : K) : HashMap K V × Option V :=
  let len' := (m.len + (USIZE - 1)) % USIZE
  match bucketIdx hash m.buckets k with
  | none => (⟨m.buckets, len'⟩, none)
  | some i =>
    match m.buckets[i]? with
    | none => (⟨m.buckets, len'⟩, none)
    | some b =>
      let p := b.remove k
      (⟨m.buckets.set i p.1, len'⟩, p.2)

/-- src/hash_map.rs, `HashMap::get_kv` (via `HashMap::bucket` and
`Bucket::get`). -/
def get_kv (hash : K → Nat) (m : HashMap K V) (k : K) : Option (K × V) :=
  match bucketIdx hash m.buckets k with
  | none => none
  | some i =>
    match m.buckets[i]? with
    | none => none
    | some b => b.get k

/-- src/hash_map.rs, `HashMap::get`. -/
def get (hash : K → Nat) (m : HashMap K V) (k : K) : Option V :=
  (m.get_kv hash k).map Prod.snd

/-- src/hash_map.rs, `HashMap::reserve_exact` (usize overflow of
`len + additional` is unreachable for feasible inputs and not modelled). -/
def reserve_exact (zst : Bool) (hash : K → Nat) (m : HashMap K V)
    (additional : Nat) : HashMap K V :=
  let new_capacity := m.len + additional
  if m.capacity zst < new_capacity then m.resize zst hash new_capacity else m

/-- src/hash_map.rs, `HashMap::reserve` (delegates to `reserve_exact`). -/
def reserve (zst : Bool) (hash : K → Nat) (m : HashMap K V)
    (additional : Nat) : HashMap K V :=
  m.reserve_exact zst hash additional

/-- src/hash_map.rs, `HashMap::shrink_to`: resize to the larger of
`(len as f64 / 0.75) as usize` (exactly `4 * len / 3` on every state
considered here) and the caller's floor. -/
def shrink_to (zst : Bool) (hash : K → Nat) (m : HashMap K V)
    (min_capacity : Nat) : HashMap K V :=
  m.resize zst hash (Nat.max (4 * m.len / 3) min_capacity)

/-- src/hash_map.rs, `HashMap::shrink_to_fit`. -/
def shrink_to_fit (zst : Bool) (hash : K → Nat) (m : HashMap K V) : HashMap K V :=
  m.shrink_to zst hash 0

/-- The keys currently stored, in entry order. -/
def keysOf (bs : List (Bucket K V)) : List K :=
  (bs.flatMap Bucket.toList).map Prod.fst

/-- The placement invariant: every entry of bucket `i` hashes to `i`
modulo the bucket count. -/
def BucketsWf (hash : K → Nat) (bs : List (Bucket K V)) : Prop :=
  ∀ i, i < bs.length →
    ∀ kv ∈ (bs[i]?.getD default).toList, hash kv.1 % bs.length = i

instance (hash : K → Nat) (bs : List (Bucket K V)) :
    Decidable (BucketsWf hash bs) := by
  unfold BucketsWf; infer_instance

end HashMap

section ListHelpers

variable {α β : Type}

theorem append_singleton_perm (l : List α) (a : α) : (l ++ [a]).Perm (a :: l) := by
  simpa using (List.perm_middle : (l ++ a :: []).Perm (a :: (l ++ [])))

theorem flatMap_sublist_of_mem (f : α → List β) {a : α} :
    ∀ {l : List α}, a ∈ l → (f a).Sublist (l.flatMap f)
  | c :: t, h => by
    rcases List.mem_cons.mp h with h | h
    · subst h; simpa [List.flatMap_cons] using List.sublist_append_left (f a) (t.flatMap f)
    · simpa [List.flatMap_cons] using
        (flatMap_sublist_of_mem f h).trans (List.sublist_append_right (f c) (t.flatMap f))

theorem flatMap_set_perm (f : α → List β) {x : β} :
    ∀ (bs : List α) (i : Nat) (b b' : α), bs[i]? = some b →
      (f b').Perm (x :: f b) →
      ((bs.set i b').flatMap f).Perm (x :: bs.flatMap f)
  | [], i, b, b', h, _ => by simp at h
  | c :: t, 0, b, b', h, hp => by
    simp only [List.getElem?_cons_zero, Option.some.injEq] at h
    subst h
    simpa [List.flatMap_cons] using hp.append_right (t.flatMap f)
  | c :: t, i + 1, b, b', h, hp => by
    simp only [List.getElem?_cons_succ] at h
    have ih := flatMap_set_perm f t i b b' h hp
    rw [List.set_cons_succ,
        show (c :: t.set i b').flatMap f = f c ++ (t.set i b').flatMap f from by
          simp [List.flatMap_cons],
        show (c :: t).flatMap f = f c ++ t.flatMap f from by simp [List.flatMap_cons]]
    exact (ih.append_left (f c)).trans List.perm_middle

end ListHelpers

section FindHelpers

variable {K V : Type} [DecidableEq K]

theorem find?_key_eq {l : List (K × V)} {k : K} {p : K × V}
    (h : l.find? (fun q => decide (q.1 = k)) = some p) : p.1 = k := by
  simpa using List.find?_some h

theorem find?_of_mem_of_nodup :
    ∀ {l : List (K × V)}, (l.map Prod.fst).Nodup → ∀ {k : K} {v : V}, (k, v) ∈ l →
      l.find? (fun q => decide (q.1 = k)) = some (k, v)
  | [], _, _, _, hm => by simp at hm
  | (k0, v0) :: t, hn, k, v, hm => by
    simp only [List.map_cons, List.nodup_cons] at hn
    by_cases hk : k0 = k
    · subst hk
      rcases List.mem_cons.mp hm with h | h
      · rw [List.find?_cons_of_pos _ (by simp)]
        exact congrArg some h.symm
      · exact absurd (List.mem_map_of_mem Prod.fst h) hn.1
    · have hm' : (k, v) ∈ t := by
        rcases List.mem_cons.mp hm with h | h
        · injection h with h1 h2
          exact (hk h1.symm).elim
        · exact h
      rw [List.find?_cons_of_neg _ (by simpa using hk)]
      exact find?_of_mem_of_nodup hn.2 hm'

theorem find?_eq_none_of_not_mem {l : List (K × V)} {k : K}
    (h : k ∉ l.map Prod.fst) : l.find? (fun q => decide (q.1 = k)) = none := by
  rw [List.find?_eq_none]
  intro p hp hpk
  exact h (List.mem_map.mpr ⟨p, hp, by simpa using hpk⟩)

end FindHelpers

section BucketLemmas

variable {K V : Type} [DecidableEq K]

/-- `Bucket::get` is the first-match linear search over the bucket's
entry list (first slot, then overflow). -/
theorem Bucket.get_eq_find? (b : Bucket K V) (k : K) :
    b.get k = b.toList.find? (fun p => decide (p.1 = k)) := by
  rcases b with ⟨first, others⟩
  cases first with
  | none => cases others <;> simp [Bucket.get, Bucket.toList]
  | some kv =>
    rcases kv with ⟨k0, v0⟩
    by_cases hk : k = k0
    · subst hk
      cases others <;>
        simp [Bucket.get, Bucket.toList, List.find?_cons_of_pos]
    · have hk' : ¬(k0 = k) := fun h => hk h.symm
      cases others <;>
        simp [Bucket.get, Bucket.toList, hk, List.find?_cons_of_neg, hk']

/-- `Bucket::insert` always stores the new pair somewhere in the bucket. -/
theorem Bucket.insert_mem (b : Bucket K V) (k : K) (v : V) :
    (k, v) ∈ (b.insert k v).1.toList := by
  rcases b with ⟨first, others⟩
  cases first with
  | none => simp [Bucket.insert, Bucket.toList]
  | some kv =>
    rcases kv with ⟨k0, v0⟩
    by_cases hk : k0 = k <;> simp [Bucket.insert, hk, Bucket.toList]

/-- Inserting a key not yet present in the bucket displaces nothing and
adds exactly the new pair to the bucket's entries. -/
theorem Bucket.insert_fresh (b : Bucket K V) (k : K) (v : V)
    (h : k ∉ b.toList.map Prod.fst) :
    (b.insert k v).2 = none ∧
      (b.insert k v).1.toList.Perm ((k, v) :: b.toList) := by
  rcases b with ⟨first, others⟩
  cases first with
  | none =>
    refine ⟨rfl, ?_⟩
    simp [Bucket.insert, Bucket.toList]
  | some kv =>
    rcases kv with ⟨k0, v0⟩
    have hk : ¬(k0 = k) := by
      intro he
      exact h (by simp [Bucket.toList, he])
    refine ⟨by simp [Bucket.insert, hk], ?_⟩
    simp only [Bucket.insert, hk, if_false]
    show ((k0, v0) :: (others.getD [] ++ [(k, v)])).Perm
        ((k, v) :: ((k0, v0) :: others.getD []))
    exact ((append_singleton_perm _ _).cons _).trans (List.Perm.swap _ _ _)

end BucketLemmas

namespace HashMap

variable {K V : Type} [DecidableEq K]

theorem length_vec_of_empties (c : Nat) :
    (Bucket.vec_of_empties (K := K) (V := V) c).length = c := by
  simp [Bucket.vec_of_empties]

theorem flatMap_vec_of_empties (c : Nat) :
    (Bucket.vec_of_empties (K := K) (V := V) c).flatMap Bucket.toList = [] := by
  induction c with
  | zero => rfl
  | succ n ih =>
    have hsplit : Bucket.vec_of_empties (K := K) (V := V) (n + 1) =
        (default : Bucket K V) :: Bucket.vec_of_empties n := by
      simp [Bucket.vec_of_empties, List.replicate_succ]
    rw [hsplit, List.flatMap_cons, Bucket.toList_default, List.nil_append, ih]

theorem bucketsWf_vec_of_empties (hash : K → Nat) (c : Nat) :
    BucketsWf hash (Bucket.vec_of_empties (K := K) (V := V) c) := by
  intro i hi kv hkv
  rw [length_vec_of_empties] at hi
  simp [Bucket.vec_of_empties, List.getElem?_replicate, hi] at hkv

theorem length_insertIntoBuckets (hash : K → Nat) (bs : List (Bucket K V))
    (k : K) (v : V) : (insertIntoBuckets hash bs k v).1.length = bs.length := by
  unfold insertIntoBuckets
  cases h : bucketIdx hash bs k with
  | none => rfl
  | some i =>
    cases hb : bs[i]? with
    | none => simp [hb]
    | some b => simp [hb]

/-- Inserting a key fresh for the whole table into a non-empty well-placed
bucket array: nothing is displaced, exactly the new pair is added, and
the placement invariant is preserved. -/
theorem insertIntoBuckets_fresh (hash : K → Nat) {bs : List (Bucket K V)}
    (hwf : BucketsWf hash bs) (hne : bs ≠ []) {k : K} (hk : k ∉ keysOf bs)
    (v : V) :
    (insertIntoBuckets hash bs k v).2 = none ∧
      ((insertIntoBuckets hash bs k v).1.flatMap Bucket.toList).Perm
        ((k, v) :: bs.flatMap Bucket.toList) ∧
      BucketsWf hash (insertIntoBuckets hash bs k v).1 := by
  have hlen : bs.length ≠ 0 := fun h => hne (List.length_eq_zero.mp h)
  have hi : hash k % bs.length < bs.length :=
    Nat.mod_lt _ (Nat.pos_of_ne_zero hlen)
  have hb : bs[hash k % bs.length]? = some bs[hash k % bs.length] :=
    List.getElem?_eq_getElem hi
  have hmem : bs[hash k % bs.length] ∈ bs := List.getElem_mem hi
  have hfresh : k ∉ (bs[hash k % bs.length].toList.map Prod.fst) := by
    intro hmem'
    exact hk (((flatMap_sublist_of_mem Bucket.toList hmem).map Prod.fst).mem hmem')
  obtain ⟨hnone, hperm⟩ := Bucket.insert_fresh bs[hash k % bs.length] k v hfresh
  have heq : insertIntoBuckets hash bs k v =
      (bs.set (hash k % bs.length) (bs[hash k % bs.length].insert k v).1,
        (bs[hash k % bs.length].insert k v).2) := by
    unfold insertIntoBuckets bucketIdx
    simp [hlen, hb]
  rw [heq]
  refine ⟨hnone, flatMap_set_perm Bucket.toList bs _ _ _ hb hperm, ?_⟩
  intro j hj kv hkv
  rw [List.length_set] at hj ⊢
  by_cases hij : hash k % bs.length = j
  · subst hij
    rw [List.getElem?_set_eq hi] at hkv
    simp only [Option.getD_some] at hkv
    rcases List.mem_cons.mp (hperm.mem_iff.mp hkv) with h | h
    · subst h; rfl
    · have := hwf _ hi kv
      rw [hb] at this
      exact this h
  · rw [List.getElem?_set_ne hij] at hkv
    exact hwf j hj kv hkv

theorem rehash_length (hash : K → Nat) (es : List (K × V))
    (bs : List (Bucket K V)) : (rehash hash es bs).length = bs.length := by
  induction es generalizing bs with
  | nil => rfl
  | cons e es ih =>
    show (rehash hash es (insertIntoBuckets hash bs e.1 e.2).1).length = bs.length
    rw [ih, length_insertIntoBuckets]

/-- The rehashing loop, fed entries with pairwise distinct keys disjoint
from the keys already present, adds exactly those entries and preserves
the placement invariant and key distinctness. -/
theorem rehash_spec (hash : K → Nat) :
    ∀ (es : List (K × V)) (bs : List (Bucket K V)), BucketsWf hash bs →
      bs ≠ [] → (keysOf bs).Nodup → (es.map Prod.fst).Nodup →
      (∀ k ∈ es.map Prod.fst, k ∉ keysOf bs) →
      ((rehash hash es bs).flatMap Bucket.toList).Perm
          (es ++ bs.flatMap Bucket.toList) ∧
        BucketsWf hash (rehash hash es bs) ∧ (keysOf (rehash hash es bs)).Nodup
  | [], bs, hwf, _, hnd, _, _ => ⟨by simp [rehash], hwf, hnd⟩
  | (k, v) :: es, bs, hwf, hne, hnd, hes, hdisj => by
    have hkfresh : k ∉ keysOf bs := hdisj k (by simp)
    obtain ⟨_, hperm, hwf'⟩ := insertIntoBuckets_fresh hash hwf hne hkfresh v
    have hkeysperm : (keysOf (insertIntoBuckets hash bs k v).1).Perm
        (k :: keysOf bs) := hperm.map Prod.fst
    have hne' : (insertIntoBuckets hash bs k v).1 ≠ [] := by
      intro h
      have := length_insertIntoBuckets hash bs k v
      rw [h] at this
      exact hne (List.length_eq_zero.mp this.symm)
    simp only [List.map_cons, List.nodup_cons] at hes
    have hnd' : (keysOf (insertIntoBuckets hash bs k v).1).Nodup :=
      (List.Perm.nodup_iff hkeysperm).mpr (List.nodup_cons.mpr ⟨hkfresh, hnd⟩)
    have hdisj' : ∀ k' ∈ es.map Prod.fst,
        k' ∉ keysOf (insertIntoBuckets hash bs k v).1 := by
      intro k' hk' hmem
      rcases List.mem_cons.mp (hkeysperm.mem_iff.mp hmem) with h | h
      · exact hes.1 (h ▸ hk')
      · exact hdisj k' (by simp [hk']) h
    obtain ⟨ih1, ih2, ih3⟩ := rehash_spec hash es (insertIntoBuckets hash bs k v).1
      hwf' hne' hnd' hes.2 hdisj'
    refine ⟨?_, ih2, ih3⟩
    show ((rehash hash es (insertIntoBuckets hash bs k v).1).flatMap
        Bucket.toList).Perm (((k, v) :: es) ++ bs.flatMap Bucket.toList)
    refine (ih1.trans ?_)
    exact ((hperm.append_left es).trans List.perm_middle)

/-- `HashMap::resize` leaves the bucket count at exactly the requested
capacity (both the ZST and the rehashing path). -/
theorem resize_length (zst : Bool) (hash : K → Nat) (m : HashMap K V)
    (c : Nat) : (m.resize zst hash c).buckets.length = c := by
  unfold resize
  cases zst with
  | true => simp [length_vec_of_empties]
  | false => simp [rehash_length, length_vec_of_empties]

/-- `HashMap::resize` with a positive target capacity, on a table with
pairwise distinct stored keys: the multiset of entries is preserved, the
placement invariant is (re-)established, keys stay distinct, and `len` is
untouched. -/
theorem resize_spec (hash : K → Nat) (m : HashMap K V) (c : Nat)
    (hnd : (keysOf m.buckets).Nodup) (hc : c ≠ 0) :
    ((m.resize false hash c).entries).Perm m.entries ∧
      BucketsWf hash (m.resize false hash c).buckets ∧
      (keysOf (m.resize false hash c).buckets).Nodup ∧
      (m.resize false hash c).buckets.length = c ∧
      (m.resize false hash c).len = m.len := by
  have hne : Bucket.vec_of_empties (K := K) (V := V) c ≠ [] := by
    intro h
    have := length_vec_of_empties (K := K) (V := V) c
    rw [h] at this
    exact hc this.symm
  have hkeys : keysOf (Bucket.vec_of_empties (K := K) (V := V) c) = [] := by
    simp [keysOf, flatMap_vec_of_empties]
  obtain ⟨h1, h2, h3⟩ := rehash_spec hash m.entries (Bucket.vec_of_empties c)
    (bucketsWf_vec_of_empties hash c) hne (by simp [hkeys]) hnd
    (by simp [hkeys])
  refine ⟨?_, h2, h3, resize_length false hash m c, rfl⟩
  show ((rehash hash m.entries (Bucket.vec_of_empties c)).flatMap
      Bucket.toList).Perm m.entries
  simpa [flatMap_vec_of_empties] using h1

theorem keysOf_eq_map_entries (m : HashMap K V) :
    keysOf m.buckets = m.entries.map Prod.fst := rfl

theorem get_kv_of_empty (hash : K → Nat) (m : HashMap K V)
    (hne : m.buckets = []) (k : K) : m.get_kv hash k = none := by
  unfold get_kv bucketIdx
  simp [hne]

theorem get_kv_of_nonempty (hash : K → Nat) (m : HashMap K V)
    (hne : m.buckets ≠ []) (k : K) :
    m.get_kv hash k =
      (m.buckets[hash k % m.buckets.length]?.getD default).toList.find?
        (fun p => decide (p.1 = k)) := by
  have hlen : m.buckets.length ≠ 0 := fun h => hne (List.length_eq_zero.mp h)
  have hi : hash k % m.buckets.length < m.buckets.length :=
    Nat.mod_lt _ (Nat.pos_of_ne_zero hlen)
  have hb : m.buckets[hash k % m.buckets.length]? =
      some m.buckets[hash k % m.buckets.length] := List.getElem?_eq_getElem hi
  unfold get_kv bucketIdx
  simp [hlen, hb, Bucket.get_eq_find?]

/-- A returned pair of `HashMap::get_kv` always carries the queried key. -/
theorem get_kv_key (hash : K → Nat) (m : HashMap K V) {k : K} {p : K × V}
    (h : m.get_kv hash k = some p) : p.1 = k := by
  by_cases hne : m.buckets = []
  · rw [get_kv_of_empty hash m hne] at h
    exact absurd h (by simp)
  · rw [get_kv_of_nonempty hash m hne] at h
    exact find?_key_eq h

/-- With well-placed buckets and pairwise distinct keys, `get_kv` answers
`some (k, v)` exactly when `(k, v)` is a stored entry. -/
theorem get_kv_some_iff (hash : K → Nat) (m : HashMap K V)
    (hwf : BucketsWf hash m.buckets) (hnd : (keysOf m.buckets).Nodup)
    (k : K) (v : V) :
    m.get_kv hash k = some (k, v) ↔ (k, v) ∈ m.entries := by
  by_cases hne : m.buckets = []
  · unfold get_kv bucketIdx
    simp [hne, entries]
  · have hlen : m.buckets.length ≠ 0 := fun h => hne (List.length_eq_zero.mp h)
    have hi : hash k % m.buckets.length < m.buckets.length :=
      Nat.mod_lt _ (Nat.pos_of_ne_zero hlen)
    have hb : m.buckets[hash k % m.buckets.length]? =
        some m.buckets[hash k % m.buckets.length] := List.getElem?_eq_getElem hi
    have hget : m.get_kv hash k =
        m.buckets[hash k % m.buckets.length].toList.find?
          (fun p => decide (p.1 = k)) := by
      unfold get_kv bucketIdx
      simp [hlen, hb, Bucket.get_eq_find?]
    rw [hget]
    constructor
    · intro h
      exact List.mem_flatMap.mpr ⟨_, List.getElem_mem hi,
        List.mem_of_find?_eq_some h⟩
    · intro h
      obtain ⟨b, hbmem, hkv⟩ := List.mem_flatMap.mp h
      obtain ⟨j, hj⟩ := List.mem_iff_getElem?.mp hbmem
      obtain ⟨hjlt, hjget⟩ := List.getElem?_eq_some_iff.mp hj
      have hplace : hash k % m.buckets.length = j := by
        have := hwf j hjlt (k, v)
        rw [hj] at this
        exact this hkv
      have hbeq : b = m.buckets[hash k % m.buckets.length] := by
        subst hplace; exact hjget.symm
      rw [← hbeq]
      have hsub : (b.toList.map Prod.fst).Sublist (keysOf m.buckets) :=
        (flatMap_sublist_of_mem Bucket.toList hbmem).map Prod.fst
      exact find?_of_mem_of_nodup (hsub.nodup hnd) hkv

/-- With well-placed buckets, `get_kv` answers `none` exactly when the key
is not stored at all. -/
theorem get_kv_none_iff (hash : K → Nat) (m : HashMap K V)
    (hwf : BucketsWf hash m.buckets) (k : K) :
    m.get_kv hash k = none ↔ k ∉ keysOf m.buckets := by
  by_cases hne : m.buckets = []
  · unfold get_kv bucketIdx
    simp [hne, keysOf]
  · have hlen : m.buckets.length ≠ 0 := fun h => hne (List.length_eq_zero.mp h)
    have hi : hash k % m.buckets.length < m.buckets.length :=
      Nat.mod_lt _ (Nat.pos_of_ne_zero hlen)
    have hb : m.buckets[hash k % m.buckets.length]? =
        some m.buckets[hash k % m.buckets.length] := List.getElem?_eq_getElem hi
    have hget : m.get_kv hash k =
        m.buckets[hash k % m.buckets.length].toList.find?
          (fun p => decide (p.1 = k)) := by
      unfold get_kv bucketIdx
      simp [hlen, hb, Bucket.get_eq_find?]
    rw [hget, List.find?_eq_none]
    constructor
    · intro h hmem
      obtain ⟨p, hp, hpk⟩ := List.mem_map.mp hmem
      obtain ⟨b, hbmem, hkv⟩ := List.mem_flatMap.mp hp
      obtain ⟨j, hj⟩ := List.mem_iff_getElem?.mp hbmem
      obtain ⟨hjlt, hjget⟩ := List.getElem?_eq_some_iff.mp hj
      have hplace : hash k % m.buckets.length = j := by
        have := hwf j hjlt p
        rw [hj] at this
        rw [← hpk]
        exact this hkv
      have hbeq : b = m.buckets[hash k % m.buckets.length] := by
        subst hplace; exact hjget.symm
      exact h p (hbeq ▸ hkv) (by simpa using hpk)
    · intro h p hp hpk
      have : p.1 ∈ keysOf m.buckets := List.mem_map.mpr
        ⟨p, List.mem_flatMap.mpr ⟨_, List.getElem_mem hi, hp⟩, rfl⟩
      rw [show p.1 = k from by simpa using hpk] at this
      exact h this

/-- `get_kv` is determined by the multiset of entries, on any two
well-placed distinct-key tables holding the same entries. -/
theorem get_kv_congr (hash : K → Nat) {m m' : HashMap K V}
    (hwf : BucketsWf hash m.buckets) (hwf' : BucketsWf hash m'.buckets)
    (hnd : (keysOf m.buckets).Nodup) (hperm : m'.entries.Perm m.entries)
    (k : K) : m'.get_kv hash k = m.get_kv hash k := by
  have hnd' : (keysOf m'.buckets).Nodup := by
    rw [keysOf_eq_map_entries]
    exact ((hperm.map Prod.fst).nodup_iff).mpr (by rwa [keysOf_eq_map_entries] at hnd)
  cases h : m.get_kv hash k with
  | none =>
    have hk : k ∉ keysOf m.buckets := (get_kv_none_iff hash m hwf k).mp h
    have hk' : k ∉ keysOf m'.buckets := by
      rw [keysOf_eq_map_entries]
      intro hmem
      exact hk (by
        rw [keysOf_eq_map_entries]
        exact (hperm.map Prod.fst).mem_iff.mp hmem)
    exact (get_kv_none_iff hash m' hwf' k).mpr hk'
  | some p =>
    have hpk : p.1 = k := get_kv_key hash m h
    have hpeq : p = (k, p.2) := by rw [← hpk]
    have h2 : m.get_kv hash k = some (k, p.2) := by rw [h, ← hpeq]
    have hmem : (k, p.2) ∈ m.entries :=
      (get_kv_some_iff hash m hwf hnd k p.2).mp h2
    rw [hpeq]
    exact (get_kv_some_iff hash m' hwf' hnd' k p.2).mpr (hperm.mem_iff.mpr hmem)

theorem ne_nil_of_resize (zst : Bool) (hash : K → Nat) (m : HashMap K V)
    (c : Nat) (hc : c ≠ 0) : (m.resize zst hash c).buckets ≠ [] := by
  intro h
  have := resize_length zst hash m c
  rw [h] at this
  exact hc this.symm

/-- The growth check at the start of every insert always leaves a
non-empty bucket array, for any key/value types. -/
theorem expand_nonempty (zst : Bool) (hash : K → Nat) (m : HashMap K V) :
    (m.expand_if_needed zst hash).buckets ≠ [] := by
  by_cases he : m.buckets = []
  · have heb : m.buckets.isEmpty = true := List.isEmpty_iff.mpr he
    have heq : m.expand_if_needed zst hash = m.resize zst hash INIT_CAPACITY := by
      unfold expand_if_needed
      rw [heb]
      simp
    rw [heq]
    exact ne_nil_of_resize zst hash m INIT_CAPACITY (by decide)
  · have heb : m.buckets.isEmpty = false := List.isEmpty_eq_false.mpr he
    by_cases hl : 4 * m.len > 3 * m.capacity zst
    · have heq : m.expand_if_needed zst hash =
          m.resize zst hash (m.capacity zst * 4) := by
        unfold expand_if_needed
        rw [heb]
        simp [hl]
      rw [heq]
      have hcap : m.capacity zst ≠ 0 := by
        cases zst with
        | true =>
          have hc : m.capacity true = ISIZE_MAX := rfl
          rw [hc]
          decide
        | false =>
          have hc : m.capacity false = m.buckets.length := rfl
          rw [hc]
          exact fun h => he (List.length_eq_zero.mp h)
      exact ne_nil_of_resize zst hash m _ (by omega)
    · have heq : m.expand_if_needed zst hash = m := by
        unfold expand_if_needed
        rw [heb]
        simp [hl]
      rw [heq]
      exact he

/-- `expand_if_needed` on a non-ZST table with distinct well-placed keys:
the entries, their placement discipline and the length field are
preserved, and afterwards the bucket array is never empty. -/
theorem expand_spec (hash : K → Nat) (m : HashMap K V)
    (hwf : BucketsWf hash m.buckets) (hnd : (keysOf m.buckets).Nodup) :
    ((m.expand_if_needed false hash).entries).Perm m.entries ∧
      BucketsWf hash (m.expand_if_needed false hash).buckets ∧
      (keysOf (m.expand_if_needed false hash).buckets).Nodup ∧
      (m.expand_if_needed false hash).len = m.len ∧
      (m.expand_if_needed false hash).buckets ≠ [] := by
  by_cases he : m.buckets = []
  · have heb : m.buckets.isEmpty = true := List.isEmpty_iff.mpr he
    have heq : m.expand_if_needed false hash =
        m.resize false hash INIT_CAPACITY := by
      unfold expand_if_needed
      rw [heb]
      simp
    rw [heq]
    obtain ⟨h1, h2, h3, _, h5⟩ := resize_spec hash m INIT_CAPACITY hnd (by decide)
    exact ⟨h1, h2, h3, h5, ne_nil_of_resize false hash m INIT_CAPACITY (by decide)⟩
  · have heb : m.buckets.isEmpty = false := List.isEmpty_eq_false.mpr he
    by_cases hl : 4 * m.len > 3 * m.capacity false
    · have heq : m.expand_if_needed false hash =
          m.resize false hash (m.capacity false * 4) := by
        unfold expand_if_needed
        rw [heb]
        simp [hl]
      rw [heq]
      have hcap : m.capacity false * 4 ≠ 0 := by
        have hlen0 : m.buckets.length ≠ 0 := fun h => he (List.length_eq_zero.mp h)
        have hc : m.capacity false = m.buckets.length := rfl
        rw [hc]
        omega
      obtain ⟨h1, h2, h3, _, h5⟩ := resize_spec hash m _ hnd hcap
      exact ⟨h1, h2, h3, h5, ne_nil_of_resize false hash m _ hcap⟩
    · have heq : m.expand_if_needed false hash = m := by
        unfold expand_if_needed
        rw [heb]
        simp [hl]
      rw [heq]
      exact ⟨List.Perm.refl _, hwf, hnd, rfl, he⟩

/-- One `HashMap::insert_kv` of a key not yet stored, on a non-ZST table
with distinct well-placed keys and feasible length: nothing is displaced,
the new pair joins the entries, the invariants persist, and the stored
length grows by exactly one. -/
theorem insert_kv_fresh (hash : K → Nat) (m : HashMap K V)
    (hwf : BucketsWf hash m.buckets) (hnd : (keysOf m.buckets).Nodup)
    {k : K} (hk : k ∉ keysOf m.buckets) (v : V) (hlen : m.len + 1 < USIZE) :
    (m.insert_kv false hash k v).2 = none ∧
      ((m.insert_kv false hash k v).1.entries).Perm ((k, v) :: m.entries) ∧
      BucketsWf hash (m.insert_kv false hash k v).1.buckets ∧
      (keysOf (m.insert_kv false hash k v).1.buckets).Nodup ∧
      (m.insert_kv false hash k v).1.len = m.len + 1 := by
  have hm1len : ((⟨m.buckets, (m.len + 1) % USIZE⟩ : HashMap K V)).len
      = m.len + 1 := Nat.mod_eq_of_lt hlen
  obtain ⟨e1, e2, e3, e4, e5⟩ :=
    expand_spec hash (⟨m.buckets, (m.len + 1) % USIZE⟩ : HashMap K V) hwf hnd
  set m2 := HashMap.expand_if_needed false hash
    (⟨m.buckets, (m.len + 1) % USIZE⟩ : HashMap K V) with hm2
  have he1 : m2.entries.Perm m.entries := e1
  have hk2 : k ∉ keysOf m2.buckets := by
    rw [keysOf_eq_map_entries]
    intro hmem
    apply hk
    rw [keysOf_eq_map_entries]
    exact (he1.map Prod.fst).mem_iff.mp hmem
  obtain ⟨f1, f2, f3⟩ := insertIntoBuckets_fresh hash e2 e5 hk2 v
  have hres : m.insert_kv false hash k v =
      (⟨(insertIntoBuckets hash m2.buckets k v).1, m2.len⟩,
        (insertIntoBuckets hash m2.buckets k v).2) := rfl
  rw [hres]
  have hperm : ((insertIntoBuckets hash m2.buckets k v).1.flatMap
      Bucket.toList).Perm ((k, v) :: m.entries) :=
    f2.trans (he1.cons (k, v))
  refine ⟨f1, hperm, f3, ?_, by rw [e4, hm1len]⟩
  have hkeys : (keysOf (insertIntoBuckets hash m2.buckets k v).1).Perm
      (k :: m.entries.map Prod.fst) := hperm.map Prod.fst
  exact hkeys.nodup_iff.mpr (List.nodup_cons.mpr ⟨hk, hnd⟩)

/-- The inductive invariant tying a table to the association list `model`
of entries it should hold. -/
def Inv (hash : K → Nat) (m : HashMap K V) (model : List (K × V)) : Prop :=
  BucketsWf hash m.buckets ∧ (keysOf m.buckets).Nodup ∧
    m.entries.Perm model ∧ m.len = model.length

theorem inv_new (hash : K → Nat) : Inv hash (new : HashMap K V) [] := by
  refine ⟨?_, ?_, ?_, rfl⟩
  · intro i hi
    simp [new, Bucket.vec_of_empties] at hi
  · simp [new, keysOf, Bucket.vec_of_empties]
  · simp [new, entries, Bucket.vec_of_empties]

/-- A whole sequence of inserts, as a left fold. -/
def foldInserts (hash : K → Nat) (ps : List (K × V)) (m : HashMap K V) :
    HashMap K V :=
  ps.foldl (fun m kv => (m.insert_kv false hash kv.1 kv.2).1) m

theorem foldInserts_inv (hash : K → Nat) :
    ∀ (ps : List (K × V)) (m : HashMap K V) (model : List (K × V)),
      Inv hash m model → ((model ++ ps).map Prod.fst).Nodup →
      model.length + ps.length < USIZE →
      Inv hash (foldInserts hash ps m) (model ++ ps)
  | [], m, model, hinv, _, _ => by simpa [foldInserts] using hinv
  | (k, v) :: ps, m, model, hinv, hnd, hlen => by
    obtain ⟨hwf, hnd0, hperm, hl⟩ := hinv
    have hndflat : (model.map Prod.fst ++ k :: ps.map Prod.fst).Nodup := by
      simpa using hnd
    obtain ⟨-, -, hdisj⟩ := List.nodup_append.mp hndflat
    have hknotin : k ∉ keysOf m.buckets := by
      rw [keysOf_eq_map_entries]
      intro hmem
      exact hdisj ((hperm.map Prod.fst).mem_iff.mp hmem) (by simp)
    have hlen1 : m.len + 1 < USIZE := by
      rw [hl]
      simp only [List.length_cons] at hlen
      omega
    obtain ⟨-, s2, s3, s4, s5⟩ := insert_kv_fresh hash m hwf hnd0 hknotin v hlen1
    have hinv' : Inv hash (m.insert_kv false hash k v).1 (model ++ [(k, v)]) := by
      refine ⟨s3, s4, ?_, ?_⟩
      · exact s2.trans ((hperm.cons (k, v)).trans
          (append_singleton_perm model (k, v)).symm)
      · rw [s5, hl]
        simp
    have hnd2 : (((model ++ [(k, v)]) ++ ps).map Prod.fst).Nodup := by
      rw [List.append_assoc]
      simpa using hnd
    have hlen2 : (model ++ [(k, v)]).length + ps.length < USIZE := by
      simp only [List.length_cons] at hlen
      simp only [List.length_append, List.length_singleton]
      omega
    have hrec := foldInserts_inv hash ps (m.insert_kv false hash k v).1
      (model ++ [(k, v)]) hinv' hnd2 hlen2
    show Inv hash (foldInserts hash ps (m.insert_kv false hash k v).1)
      (model ++ (k, v) :: ps)
    rw [show model ++ (k, v) :: ps = (model ++ [(k, v)]) ++ ps from by simp]
    exact hrec

/-- Any `insert_kv` call physically stores the new pair: after the growth
check the bucket array is non-empty, so `bucket_mut` succeeds and the
bucket-level insert places `(k, v)` somewhere in the table. -/
theorem insert_kv_stores (zst : Bool) (hash : K → Nat) (m : HashMap K V)
    (k : K) (v : V) :
    bucketIdx hash ((⟨m.buckets, (m.len + 1) % USIZE⟩ : HashMap K V).expand_if_needed
        zst hash).buckets k ≠ none ∧
      (m.insert_kv zst hash k v).1.buckets ≠ [] ∧
      (k, v) ∈ (m.insert_kv zst hash k v).1.entries := by
  set m2 := HashMap.expand_if_needed zst hash
    (⟨m.buckets, (m.len + 1) % USIZE⟩ : HashMap K V) with hm2
  have hne : m2.buckets ≠ [] :=
    expand_nonempty zst hash (⟨m.buckets, (m.len + 1) % USIZE⟩ : HashMap K V)
  have hlen : m2.buckets.length ≠ 0 := fun h => hne (List.length_eq_zero.mp h)
  have hi : hash k % m2.buckets.length < m2.buckets.length :=
    Nat.mod_lt _ (Nat.pos_of_ne_zero hlen)
  have hb : m2.buckets[hash k % m2.buckets.length]? =
      some m2.buckets[hash k % m2.buckets.length] := List.getElem?_eq_getElem hi
  have hidx : bucketIdx hash m2.buckets k = some (hash k % m2.buckets.length) := by
    unfold bucketIdx
    simp [hlen]
  have heq : insertIntoBuckets hash m2.buckets k v =
      (m2.buckets.set (hash k % m2.buckets.length)
          (m2.buckets[hash k % m2.buckets.length].insert k v).1,
        (m2.buckets[hash k % m2.buckets.length].insert k v).2) := by
    unfold insertIntoBuckets
    rw [hidx]
    simp [hb]
  have hres : m.insert_kv zst hash k v =
      (⟨(insertIntoBuckets hash m2.buckets k v).1, m2.len⟩,
        (insertIntoBuckets hash m2.buckets k v).2) := rfl
  refine ⟨by simp [hidx], ?_, ?_⟩
  · rw [hres]
    intro hcon
    have := length_insertIntoBuckets hash m2.buckets k v
    rw [show (insertIntoBuckets hash m2.buckets k v).1 = [] from hcon] at this
    exact hlen this.symm
  · rw [hres]
    show (k, v) ∈ (insertIntoBuckets hash m2.buckets k v).1.flatMap Bucket.toList
    rw [heq]
    have hmem : (m2.buckets[hash k % m2.buckets.length].insert k v).1 ∈
        m2.buckets.set (hash k % m2.buckets.length)
          (m2.buckets[hash k % m2.buckets.length].insert k v).1 := by
      apply List.mem_iff_getElem?.mpr
      exact ⟨hash k % m2.buckets.length, List.getElem?_set_eq hi⟩
    exact List.mem_flatMap.mpr ⟨_, hmem, Bucket.insert_mem _ k v⟩

end HashMap

/-- The state of a bucket iterator (`BucketIter` / `BucketIterMut` /
`BucketIntoIter`, src/hash_map.rs): the not-yet-consumed first slot and
the remaining overflow entries.  The three Rust variants differ only in
the borrow mode of the items they yield, which the embedding erases. -/
structure BucketIterState (K V : Type) where
  first : Option (K × V)
  others : List (K × V)
  deriving DecidableEq

/-- `BucketIter::next` (and the identical `BucketIterMut::next`,
`BucketIntoIter::next`): drain the first slot, then the overflow
entries. -/
def BucketIterState.next :
    BucketIterState K V → Option ((K × V) × BucketIterState K V)
  | ⟨some kv, others⟩ => some (kv, ⟨none, others⟩)
  | ⟨none, kv :: rest⟩ => some (kv, ⟨none, rest⟩)
  | ⟨none, []⟩ => none

/-- The items a bucket iterator will still yield. -/
def BucketIterState.toList (s : BucketIterState K V) : List (K × V) :=
  s.first.toList ++ s.others

/-- `Bucket::iter` / `Bucket::iter_mut` / `Bucket::into_iter`: the fresh
per-bucket iterator (absent overflow vector iterates as empty). -/
def Bucket.iterState (b : Bucket K V) : BucketIterState K V :=
  ⟨b.first, b.others.getD []⟩

theorem Bucket.iterState_items (b : Bucket K V) :
    b.iterState.toList = b.toList := rfl

/-- The state of the table iterators (`Iter` / `IterMut` / `IntoIter`,
src/hash_map.rs): the buckets not yet entered and the current bucket
iterator, if any. -/
structure IterState (K V : Type) where
  buckets : List (Bucket K V)
  current : Option (BucketIterState K V)
  deriving DecidableEq

/-- The `continue`-loop of `Iter::next` once the current bucket iterator
is exhausted (or absent): advance through the remaining buckets, opening
each bucket's iterator and pulling from it, until one yields or the
bucket list runs out.  (The Rust loop assigns the fresh bucket iterator
to `current_bucket` and re-enters the `match`; this rendering of the same
loop recurses on the remaining buckets instead.) -/
def IterState.nextFromBuckets :
    List (Bucket K V) → Option ((K × V) × IterState K V)
  | [] => none
  | b :: rest =>
    match BucketIterState.next b.iterState with
    | some (kv, bi') => some (kv, ⟨rest, some bi'⟩)
    | none => IterState.nextFromBuckets rest

/-- `Iter::next` (and the identical `IterMut::next`, `IntoIter::next`):
pull from the current bucket iterator, else loop over the remaining
buckets. -/
def IterState.next (i : IterState K V) : Option ((K × V) × IterState K V) :=
  match i with
  | ⟨bs, some bi⟩ =>
    match BucketIterState.next bi with
    | some (kv, bi') => some (kv, ⟨bs, some bi'⟩)
    | none => IterState.nextFromBuckets bs
  | ⟨bs, none⟩ => IterState.nextFromBuckets bs

/-- The items a table iterator will still yield. -/
def IterState.toList (i : IterState K V) : List (K × V) :=
  (match i.current with
    | some s => s.toList
    | none => []) ++ i.buckets.flatMap Bucket.toList

/-- `HashMap::iter` / `HashMap::iter_mut` / `HashMap::into_iter`: a fresh
iterator over the whole bucket array with no bucket entered yet. -/
def HashMap.iterState (m : HashMap K V) : IterState K V :=
  ⟨m.buckets, none⟩

theorem HashMap.iterState_entries (m : HashMap K V) :
    m.iterState.toList = m.entries := rfl

theorem BucketIterState.next_items (s : BucketIterState K V) :
    s.toList =
      match BucketIterState.next s with
      | none => []
      | some (kv, s') => kv :: s'.toList := by
  rcases s with ⟨f, o⟩
  cases f with
  | some kv => simp [BucketIterState.next, BucketIterState.toList]
  | none =>
    cases o with
    | nil => simp [BucketIterState.next, BucketIterState.toList]
    | cons kv rest => simp [BucketIterState.next, BucketIterState.toList]

theorem IterState.nextFromBuckets_toList :
    ∀ bs : List (Bucket K V),
      bs.flatMap Bucket.toList =
        match IterState.nextFromBuckets bs with
        | none => []
        | some (kv, i') => kv :: i'.toList
  | [] => by simp [IterState.nextFromBuckets]
  | b :: rest => by
    have hbl := BucketIterState.next_items b.iterState
    cases hb : BucketIterState.next b.iterState with
    | none =>
      have hempty : b.toList = [] := by
        rw [← Bucket.iterState_items, hbl, hb]
      rw [List.flatMap_cons, hempty, List.nil_append]
      have ih := IterState.nextFromBuckets_toList rest
      rw [show IterState.nextFromBuckets (b :: rest) =
          IterState.nextFromBuckets rest from by
        rw [IterState.nextFromBuckets, hb]]
      exact ih
    | some p =>
      obtain ⟨kv, bi'⟩ := p
      have hstep : b.toList = kv :: bi'.toList := by
        rw [← Bucket.iterState_items, hbl, hb]
      rw [show IterState.nextFromBuckets (b :: rest) =
          some (kv, ⟨rest, some bi'⟩) from by
        rw [IterState.nextFromBuckets, hb]]
      rw [List.flatMap_cons, hstep]
      simp [IterState.toList]

/-- Each `next` step yields exactly the head of the remaining items. -/
theorem IterState.next_toList (i : IterState K V) :
    i.toList =
      match IterState.next i with
      | none => []
      | some (kv, i') => kv :: i'.toList := by
  rcases i with ⟨bs, cur⟩
  cases cur with
  | none =>
    rw [show IterState.next ⟨bs, none⟩ = IterState.nextFromBuckets bs from rfl]
    rw [show IterState.toList ⟨bs, none⟩ = bs.flatMap Bucket.toList from by
      simp [IterState.toList]]
    exact IterState.nextFromBuckets_toList bs
  | some bi =>
    have hbl := BucketIterState.next_items bi
    cases hb : BucketIterState.next bi with
    | none =>
      have hempty : bi.toList = [] := by rw [hbl, hb]
      rw [show IterState.next ⟨bs, some bi⟩ = IterState.nextFromBuckets bs from by
        rw [IterState.next, hb]]
      rw [show IterState.toList ⟨bs, some bi⟩ =
          bi.toList ++ bs.flatMap Bucket.toList from by simp [IterState.toList]]
      rw [hempty, List.nil_append]
      exact IterState.nextFromBuckets_toList bs
    | some p =>
      obtain ⟨kv, bi'⟩ := p
      have hstep : bi.toList = kv :: bi'.toList := by rw [hbl, hb]
      rw [show IterState.next ⟨bs, some bi⟩ = some (kv, ⟨bs, some bi'⟩) from by
        rw [IterState.next, hb]]
      rw [show IterState.toList ⟨bs, some bi⟩ =
          bi.toList ++ bs.flatMap Bucket.toList from by simp [IterState.toList]]
      rw [hstep]
      simp [IterState.toList]

/-- Repeatedly calling `next`, collecting the yielded items (with enough
fuel to reach exhaustion). -/
def IterState.drain (fuel : Nat) (i : IterState K V) : List (K × V) :=
  match fuel with
  | 0 => []
  | fuel + 1 =>
    match IterState.next i with
    | none => []
    | some (kv, i') => kv :: IterState.drain fuel i'

theorem IterState.drain_toList (fuel : Nat) :
    ∀ i : IterState K V, i.toList.length ≤ fuel →
      IterState.drain fuel i = i.toList := by
  induction fuel with
  | zero =>
    intro i h
    have : i.toList = [] := List.length_eq_zero.mp (Nat.le_zero.mp h)
    rw [IterState.drain, this]
  | succ fuel ih =>
    intro i h
    have hnx := IterState.next_toList i
    cases hn : IterState.next i with
    | none =>
      rw [IterState.drain, hn]
      rw [hnx, hn]
    | some p =>
      obtain ⟨kv, i'⟩ := p
      have hlist : i.toList = kv :: i'.toList := by rw [hnx, hn]
      have hlen : i'.toList.length ≤ fuel := by
        rw [hlist] at h
        simp only [List.length_cons] at h
        omega
      rw [hlist]
      simp only [IterState.drain, hn]
      rw [ih i' hlen]

/-!
Claim theorems.  The concrete evaluations use `hash0`, the constant hash
function: it is the hashing discipline of the repository's own
`hash_collision` test (`tests.rs` defines a key type whose `Hash`
implementation feeds the hasher a constant), under which every key lands
in bucket 0.
-/

def hash0 : Nat → Nat := fun _ => 0

/-- Claim C1 (code bug): the claim says every reachable bucket holds at
most one entry per key across first slot and overflow.  The code violates
it: `Bucket::insert` never searches the overflow sequence for an equal
key, so re-inserting a key that sits in overflow appends a duplicate.
This theorem evaluates the code at the failing input: from `new()`, after
`insert(0,10)`, `insert(1,20)`, `insert(1,30)` under colliding hashes,
bucket 0 holds two entries with key 1 (and the whole table holds two
entries with key 1). -/
theorem C1_duplicate_key_in_bucket :
    ((((HashMap.foldInserts hash0 [(0, 10), (1, 20), (1, 30)]
          HashMap.new).buckets.getD 0 default).toList.filter
        (fun p => p.1 = 1)).length = 2) ∧
      (((HashMap.foldInserts hash0 [(0, 10), (1, 20), (1, 30)]
            HashMap.new).entries.filter (fun p => p.1 = 1)).length = 2) := by
  decide

/-- Claim C2 (code bug): the claim says inserting a key currently mapped
to `v0` displaces it and returns `Some v0`, via a linear scan of the
overflow sequence with replace-in-place.  The code performs no such scan:
with the table mapping 0 ↦ 10 and 1 ↦ 20 (key 1 in overflow),
`insert_kv(1, 30)` returns `none` instead of the displaced pair, and a
subsequent `get(1)` still answers the old value 20. -/
theorem C2_overflow_key_not_replaced :
    ((HashMap.foldInserts hash0 [(0, 10), (1, 20)] HashMap.new).get_kv hash0 1 =
        some (1, 20)) ∧
      (((HashMap.foldInserts hash0 [(0, 10), (1, 20)]
            HashMap.new).insert_kv false hash0 1 30).2 = none) ∧
      ((HashMap.foldInserts hash0 [(0, 10), (1, 20), (1, 30)]
          HashMap.new).get hash0 1 = some 20) := by
  decide

/-- Claim C3 (code bug): the claim says `len()` always equals the total
number of stored entries, and in particular insert of an already-present
key leaves `len()` unchanged.  The code increments `len` unconditionally
and never corrects it on replacement: from `new()`, `insert(0,1)` then
`insert(0,2)` leaves `len = 2` with a single stored entry. -/
theorem C3_len_overcounts_on_replace :
    ((HashMap.foldInserts hash0 [(0, 1), (0, 2)] HashMap.new).len = 2) ∧
      ((HashMap.foldInserts hash0 [(0, 1), (0, 2)] HashMap.new).entries.length
        = 1) := by
  decide

/-- Claim C4 (code bug): the claim says removing an absent key returns
`None`, never panics, and leaves `len()` and the stored entries
unchanged.  The code decrements `len` before looking anything up: on the
table {0 ↦ 5}, `remove(1)` returns `None` but drops `len` to 0 while one
entry is still stored; on the empty table, `remove(0)` underflows `len`
(a debug-build panic; in release it wraps to 2^64 - 1), so the claimed
"sole fatal condition" is not the only one either. -/
theorem C4_remove_absent_corrupts_len :
    (((HashMap.foldInserts hash0 [(0, 5)] HashMap.new).remove hash0 1).2 =
        none) ∧
      (((HashMap.foldInserts hash0 [(0, 5)] HashMap.new).remove hash0 1).1.len
        = 0) ∧
      (((HashMap.foldInserts hash0 [(0, 5)]
            HashMap.new).remove hash0 1).1.entries.length = 1) ∧
      (((HashMap.new : HashMap Nat Nat).remove hash0 0).1.len = USIZE - 1) := by
  decide

/-- Claim C5, counterexample: the claim says a removal that empties the
overflow sequence always discards the overflow container, whether the
removed key matched the first slot or an overflow position.  Reachable
refutation: from `new()`, `insert(0,1)`, `insert(1,2)` (key 1 in
overflow), `remove(1)` takes the overflow-position branch and leaves the
emptied container present (`others = some []`). -/
theorem C5_empty_overflow_retained :
    (((HashMap.foldInserts hash0 [(0, 1), (1, 2)]
          HashMap.new).remove hash0 1).1.buckets.getD 0 default).others =
      some [] := by
  decide

/-- Claim C5 as amended: insertion never creates an empty overflow
container, and a removal whose key matches the first slot never leaves an
empty overflow container behind; only a removal that deletes its key from
an overflow position can retain the emptied container. -/
theorem C5_amended_overflow_discipline {K V : Type} [DecidableEq K]
    (b : Bucket K V) (k : K) (v : V) (hb : b.others ≠ some []) :
    (b.insert k v).1.others ≠ some [] ∧
      (∀ k0 v0, b.first = some (k0, v0) → k = k0 →
        (b.remove k).1.others ≠ some []) := by
  constructor
  · rcases b with ⟨first, others⟩
    cases first with
    | none => exact hb
    | some kv =>
      rcases kv with ⟨k0, v0⟩
      by_cases hk : k0 = k
      · simpa [Bucket.insert, hk] using hb
      · simp [Bucket.insert, hk]
  · intro k0 v0 hfirst hkeq
    rcases b with ⟨first, others⟩
    simp only at hfirst
    subst hfirst
    cases others with
    | none => simp [Bucket.remove, hkeq]
    | some l =>
      simp only [Bucket.remove, if_pos hkeq]
      by_cases hl : l.dropLast.isEmpty
      · simp [hl]
      · simp only [hl, if_false]
        intro hcon
        injection hcon with hcon'
        rw [hcon'] at hl
        exact hl rfl

theorem C5_amended_witness :
    ((⟨some (0, 1), some [(1, 2)]⟩ : Bucket Nat Nat).others ≠ some []) ∧
      (((⟨some (0, 1), some [(1, 2)]⟩ : Bucket Nat Nat).insert 0 9).1.others ≠
          some [] ∧
        (∀ k0 v0, (⟨some (0, 1), some [(1, 2)]⟩ : Bucket Nat Nat).first =
            some (k0, v0) → 0 = k0 →
          ((⟨some (0, 1), some [(1, 2)]⟩ : Bucket Nat Nat).remove 0).1.others ≠
            some [])) :=
  ⟨by decide, C5_amended_overflow_discipline
    (⟨some (0, 1), some [(1, 2)]⟩ : Bucket Nat Nat) 0 9 (by decide)⟩

/-- Claim C7, counterexample: the claim says that after `shrink_to_fit()`
the load factor satisfies `len()/capacity() ≤ 0.75`.  The code computes
the target as `floor(len / 0.75)`, which for the reachable table {0 ↦ 5}
(len 1) gives capacity 1 and load factor 1 > 0.75 (stated here exactly:
`3 * capacity < 4 * len`). -/
theorem C7_load_factor_exceeded :
    (((HashMap.foldInserts hash0 [(0, 5)] HashMap.new).shrink_to_fit false
          hash0).capacity false = 1) ∧
      (((HashMap.foldInserts hash0 [(0, 5)] HashMap.new).shrink_to_fit false
          hash0).len = 1) ∧
      (3 * ((HashMap.foldInserts hash0 [(0, 5)] HashMap.new).shrink_to_fit false
            hash0).capacity false <
        4 * ((HashMap.foldInserts hash0 [(0, 5)] HashMap.new).shrink_to_fit
            false hash0).len) := by
  decide

/-- Claim C6 (confirmed): from `new()`, any finite sequence of inserts
with pairwise distinct keys (of feasible count) makes `get` return the
inserted value on each inserted key and `none` on never-inserted keys,
with `len()` equal to the number of (distinct) keys inserted.  The hash
function is arbitrary. -/
theorem C6_round_trip {K V : Type} [DecidableEq K] (hash : K → Nat)
    (ps : List (K × V)) (hnd : (ps.map Prod.fst).Nodup)
    (hlen : ps.length < USIZE) :
    (∀ kv ∈ ps,
        (HashMap.foldInserts hash ps HashMap.new).get hash kv.1 = some kv.2) ∧
      (∀ k, k ∉ ps.map Prod.fst →
        (HashMap.foldInserts hash ps HashMap.new).get hash k = none) ∧
      (HashMap.foldInserts hash ps HashMap.new).len = ps.length := by
  obtain ⟨hwf, hnd', hperm, hl⟩ :=
    HashMap.foldInserts_inv hash ps HashMap.new [] (HashMap.inv_new hash)
      (by simpa using hnd) (by simpa using hlen)
  refine ⟨?_, ?_, by simpa using hl⟩
  · intro kv hkv
    have hmem : kv ∈ (HashMap.foldInserts hash ps HashMap.new).entries :=
      hperm.mem_iff.mpr (by simpa using hkv)
    have hsome := (HashMap.get_kv_some_iff hash _ hwf hnd' kv.1 kv.2).mpr hmem
    show ((HashMap.foldInserts hash ps HashMap.new).get_kv hash kv.1).map
      Prod.snd = some kv.2
    rw [hsome]
    rfl
  · intro k hk
    have hkk : k ∉ HashMap.keysOf
        (HashMap.foldInserts hash ps HashMap.new).buckets := by
      rw [HashMap.keysOf_eq_map_entries]
      intro hmem
      exact hk (by simpa using (hperm.map Prod.fst).mem_iff.mp hmem)
    have hnone := (HashMap.get_kv_none_iff hash _ hwf k).mpr hkk
    show ((HashMap.foldInserts hash ps HashMap.new).get_kv hash k).map
      Prod.snd = none
    rw [hnone]
    rfl

theorem C6_round_trip_witness :
    ((([(0, 1), (1, 2), (2, 3)] : List (Nat × Nat)).map Prod.fst).Nodup ∧
        ([(0, 1), (1, 2), (2, 3)] : List (Nat × Nat)).length < USIZE) ∧
      ((∀ kv ∈ ([(0, 1), (1, 2), (2, 3)] : List (Nat × Nat)),
          (HashMap.foldInserts hash0 [(0, 1), (1, 2), (2, 3)]
            HashMap.new).get hash0 kv.1 = some kv.2) ∧
        (∀ k, k ∉ (([(0, 1), (1, 2), (2, 3)] : List (Nat × Nat)).map Prod.fst) →
          (HashMap.foldInserts hash0 [(0, 1), (1, 2), (2, 3)]
            HashMap.new).get hash0 k = none) ∧
        (HashMap.foldInserts hash0 [(0, 1), (1, 2), (2, 3)]
          HashMap.new).len = ([(0, 1), (1, 2), (2, 3)] : List (Nat × Nat)).length) :=
  ⟨⟨by decide, by decide⟩,
    C6_round_trip hash0 [(0, 1), (1, 2), (2, 3)] (by decide) (by decide)⟩

/-- Claim C7 as amended: `shrink_to(min_capacity)` resizes to the larger
of `floor(len / 0.75)` (= `4 * len / 3`) and `min_capacity` — so after
`shrink_to_fit()` the capacity is exactly `floor(len / 0.75)`, which can
leave the load factor above 0.75 — and every previously present key is
still retrievable with its previous value. -/
theorem C7_amended_shrink {K V : Type} [DecidableEq K] (hash : K → Nat)
    (m : HashMap K V) (hwf : HashMap.BucketsWf hash m.buckets)
    (hnd : (HashMap.keysOf m.buckets).Nodup) (hl : m.len = m.entries.length)
    (min_capacity : Nat) :
    (m.shrink_to false hash min_capacity).capacity false =
        Nat.max (4 * m.len / 3) min_capacity ∧
      ∀ k, (m.shrink_to false hash min_capacity).get hash k = m.get hash k := by
  have hshr : m.shrink_to false hash min_capacity =
      m.resize false hash (Nat.max (4 * m.len / 3) min_capacity) := rfl
  by_cases hzero : Nat.max (4 * m.len / 3) min_capacity = 0
  · have h43 : 4 * m.len / 3 = 0 := Nat.le_zero.mp (le_trans (Nat.le_max_left _ _) hzero.le)
    have hlen0 : m.len = 0 := by
      have := (Nat.div_eq_zero_iff (by norm_num)).mp h43
      omega
    have hent : m.entries = [] := by
      rw [hlen0] at hl
      exact List.length_eq_zero.mp hl.symm
    have hres : m.resize false hash (Nat.max (4 * m.len / 3) min_capacity) =
        ⟨[], m.len⟩ := by
      rw [hzero]
      show (⟨HashMap.rehash hash m.entries (Bucket.vec_of_empties 0), m.len⟩ :
        HashMap K V) = ⟨[], m.len⟩
      rw [hent]
      rfl
    constructor
    · rw [hshr, hres, hzero]
      rfl
    · intro k
      rw [hshr, hres]
      have hLnone := HashMap.get_kv_of_empty hash (⟨[], m.len⟩ : HashMap K V)
        rfl k
      have hknot : k ∉ HashMap.keysOf m.buckets := by
        rw [HashMap.keysOf_eq_map_entries, hent]
        simp
      have hRnone := (HashMap.get_kv_none_iff hash m hwf k).mpr hknot
      show (HashMap.get_kv hash (⟨[], m.len⟩ : HashMap K V) k).map Prod.snd =
        (HashMap.get_kv hash m k).map Prod.snd
      rw [hLnone, hRnone]
  · obtain ⟨p1, p2, p3, p4, _⟩ := HashMap.resize_spec hash m
      (Nat.max (4 * m.len / 3) min_capacity) hnd hzero
    constructor
    · rw [hshr]
      exact p4
    · intro k
      rw [hshr]
      have hcon := HashMap.get_kv_congr hash hwf p2 hnd p1 k
      show ((m.resize false hash (Nat.max (4 * m.len / 3)
          min_capacity)).get_kv hash k).map Prod.snd =
        (m.get_kv hash k).map Prod.snd
      rw [hcon]

theorem C7_amended_shrink_witness :
    (HashMap.BucketsWf hash0
        (HashMap.foldInserts hash0 [(0, 5)] HashMap.new).buckets ∧
      (HashMap.keysOf
        (HashMap.foldInserts hash0 [(0, 5)] HashMap.new).buckets).Nodup ∧
      (HashMap.foldInserts hash0 [(0, 5)] HashMap.new).len =
        (HashMap.foldInserts hash0 [(0, 5)] HashMap.new).entries.length) ∧
      (((HashMap.foldInserts hash0 [(0, 5)] HashMap.new).shrink_to false hash0
            0).capacity false =
          Nat.max (4 * (HashMap.foldInserts hash0 [(0, 5)] HashMap.new).len / 3)
            0 ∧
        ∀ k, ((HashMap.foldInserts hash0 [(0, 5)] HashMap.new).shrink_to false
            hash0 0).get hash0 k =
          (HashMap.foldInserts hash0 [(0, 5)] HashMap.new).get hash0 k) :=
  ⟨⟨by decide, by decide, by decide⟩,
    C7_amended_shrink hash0 (HashMap.foldInserts hash0 [(0, 5)] HashMap.new)
      (by decide) (by decide) (by decide) 0⟩

/-- Claim C8 (confirmed): on a populated non-ZST table with distinct
well-placed keys, `resize(c)` with `c` at least the current length keeps
every `get` answer and reports `capacity() = c` afterwards; for
zero-sized key/value types `capacity()` is `isize::MAX` regardless of any
resizing. -/
theorem C8_resize_preserves {K V : Type} [DecidableEq K] (hash : K → Nat)
    (m : HashMap K V) (c : Nat) (hwf : HashMap.BucketsWf hash m.buckets)
    (hnd : (HashMap.keysOf m.buckets).Nodup) (hl : m.len = m.entries.length)
    (hpop : m.entries ≠ []) (hc : m.len ≤ c) :
    (∀ k, (m.resize false hash c).get hash k = m.get hash k) ∧
      (m.resize false hash c).capacity false = c ∧
      (∀ (m2 : HashMap K V) (c2 : Nat),
        (m2.resize true hash c2).capacity true = ISIZE_MAX ∧
          m2.capacity true = ISIZE_MAX) := by
  have hc0 : c ≠ 0 := by
    have hne : m.entries.length ≠ 0 := fun h => hpop (List.length_eq_zero.mp h)
    omega
  obtain ⟨p1, p2, p3, p4, _⟩ := HashMap.resize_spec hash m c hnd hc0
  refine ⟨?_, p4, fun m2 c2 => ⟨rfl, rfl⟩⟩
  intro k
  have hcon := HashMap.get_kv_congr hash hwf p2 hnd p1 k
  show ((m.resize false hash c).get_kv hash k).map Prod.snd =
    (m.get_kv hash k).map Prod.snd
  rw [hcon]

theorem C8_resize_preserves_witness :
    (HashMap.BucketsWf hash0
        (HashMap.foldInserts hash0 [(0, 5)] HashMap.new).buckets ∧
      (HashMap.keysOf
        (HashMap.foldInserts hash0 [(0, 5)] HashMap.new).buckets).Nodup ∧
      (HashMap.foldInserts hash0 [(0, 5)] HashMap.new).len =
        (HashMap.foldInserts hash0 [(0, 5)] HashMap.new).entries.length ∧
      (HashMap.foldInserts hash0 [(0, 5)] HashMap.new).entries ≠ [] ∧
      (HashMap.foldInserts hash0 [(0, 5)] HashMap.new).len ≤ 64) ∧
      ((∀ k, ((HashMap.foldInserts hash0 [(0, 5)] HashMap.new).resize false
            hash0 64).get hash0 k =
          (HashMap.foldInserts hash0 [(0, 5)] HashMap.new).get hash0 k) ∧
        ((HashMap.foldInserts hash0 [(0, 5)] HashMap.new).resize false hash0
            64).capacity false = 64 ∧
        (∀ (m2 : HashMap Nat Nat) (c2 : Nat),
          (m2.resize true hash0 c2).capacity true = ISIZE_MAX ∧
            m2.capacity true = ISIZE_MAX)) :=
  ⟨⟨by decide, by decide, by decide, by decide, by decide⟩,
    C8_resize_preserves hash0 (HashMap.foldInserts hash0 [(0, 5)] HashMap.new)
      64 (by decide) (by decide) (by decide) (by decide) (by decide)⟩

/-- Claim C9 (confirmed): iterating a table to exhaustion (the `Iter`,
`IterMut` and `IntoIter` state machines are identical up to the borrow
mode of the yielded items, which the embedding erases) yields exactly the
list of currently held entries — in particular the same multiset, with no
duplicate and no omission — whatever the capacity and bucket
distribution. -/
theorem C9_iteration_complete {K V : Type} [DecidableEq K] (m : HashMap K V)
    (fuel : Nat) (h : m.entries.length ≤ fuel) :
    IterState.drain fuel m.iterState = m.entries := by
  have hlen : m.iterState.toList.length ≤ fuel := by
    rw [HashMap.iterState_entries]
    exact h
  rw [IterState.drain_toList fuel m.iterState hlen, HashMap.iterState_entries]

theorem C9_iteration_complete_witness :
    ((HashMap.foldInserts hash0 [(0, 1), (1, 2)]
        HashMap.new).entries.length ≤ 10) ∧
      IterState.drain 10
          (HashMap.foldInserts hash0 [(0, 1), (1, 2)] HashMap.new).iterState =
        (HashMap.foldInserts hash0 [(0, 1), (1, 2)] HashMap.new).entries :=
  ⟨by decide, C9_iteration_complete
    (HashMap.foldInserts hash0 [(0, 1), (1, 2)] HashMap.new) 10 (by decide)⟩

/-- Claim C10 (confirmed): for every table, key and value (any hash
function, ZST or not), the growth check run at the start of
`insert_kv` leaves a non-empty bucket array, so the early return taken
when `bucket_mut` finds no buckets is unreachable: the bucket selection
succeeds, the resulting table still has buckets, and the inserted pair is
physically stored among its entries — never silently discarded. -/
theorem C10_insert_never_discards {K V : Type} [DecidableEq K] (zst : Bool)
    (hash : K → Nat) (m : HashMap K V) (k : K) (v : V) :
    HashMap.bucketIdx hash
        ((⟨m.buckets, (m.len + 1) % USIZE⟩ : HashMap K V).expand_if_needed zst
          hash).buckets k ≠ none ∧
      (m.insert_kv zst hash k v).1.buckets ≠ [] ∧
      (k, v) ∈ (m.insert_kv zst hash k v).1.entries :=
  HashMap.insert_kv_stores zst hash m k v

end MyHashMap
